import Mathlib

/-!
Verification of the yatte string-templating engine (src/dist/yatte-browser.js).

JavaScript strings are modelled as `List Char`, JavaScript primitive values as
`JSValue`, and code that can throw returns `Option` (`none` = an exception
propagates to the caller).  Each definition mirrors one function of the source.
-/

namespace Yatte

/-- JavaScript strings, modelled as lists of characters. -/
abbrev Str := List Char

/-- Embed a Lean string literal as a modelled JavaScript string. -/
def toStr (s : String) : Str := s.data

/-- JavaScript primitive values that can appear as interpolated template
values or as results of loop bodies. -/
inductive JSValue where
  | str (s : Str)
  | num (n : Int)
  | bool (b : Bool)
  | null
  | undefined
deriving DecidableEq

/-- JavaScript string coercion (`'' + v` / template concatenation) of a
primitive value. -/
def jsToString : JSValue → Str
  | .str s => s
  | .num n => (toString n).data
  | .bool true => toStr "true"
  | .bool false => toStr "false"
  | .null => toStr "null"
  | .undefined => toStr "undefined"

/-- JavaScript `\s` whitespace test (the subset relevant to the engine). -/
def isWS (c : Char) : Bool :=
  c = ' ' || c = '\t' || c = '\n' || c = '\r' || c = '\x0b' || c = '\x0c'

/-- JavaScript `text.split('\n')`: `splitNl [] = [[]]`, and every `'\n'`
starts a new chunk. -/
def splitNl : Str → List Str
  | [] => [[]]
  | c :: rest =>
    match splitNl rest with
    | [] => [[]]
    | l :: ls => if c = '\n' then [] :: l :: ls else (c :: l) :: ls

/-- JavaScript `Array.prototype.join(sep)` on a list of strings. -/
def intercal (sep : Str) : List Str → Str
  | [] => []
  | [x] => x
  | x :: y :: ys => x ++ sep ++ intercal sep (y :: ys)

/-- `lines.join('\n')`. -/
def joinNl : List Str → Str := intercal ['\n']

/-- The per-segment line pass of `dedent`: every line except the segment's
own first line loses its first `indent` characters (`s.substr(indent)`). -/
def dropTailLines (indent : Nat) : List Str → List Str
  | [] => []
  | l :: ls => l :: ls.map (fun s => s.drop indent)

/-- `strings[0].search(/[^\n \t]|$/)`: index of the first character that is
not a line break, space or tab, or the length of the string if none. -/
def searchNonIndent : Str → Nat
  | [] => 0
  | c :: cs => if c = '\n' || c = ' ' || c = '\t' then 1 + searchNonIndent cs else 0

/-- The dedented form of one literal segment at a given base indentation. -/
def dedentSeg (indent : Nat) (t : Str) : Str :=
  joinNl (dropTailLines indent (splitNl t))

/-- Re-indentation of a nested multi-line value inside `dedent`:
`values[i].split('\n').map(str => inner + str).join('\n').substr(inner.length * 2 + 1)`. -/
def reindentVal (inner : Str) (s : Str) : Str :=
  (joinNl ((splitNl s).map (fun l => inner ++ l))).drop (inner.length * 2 + 1)

/-- One iteration of the `strings.forEach` body of `dedent`, for segment `t`
and associated value `v` (`values[i]`, `undefined` past the end of the value
array).  Returns the dedented segment together with the values pushed to
`result.values` (none for `undefined`), or `none` when the iteration throws
(`values[i][0]` on `null`). -/
def dedentStep (indent : Nat) (t : Str) (v : JSValue) : Option (Str × List JSValue) :=
  let split := dropTailLines indent (splitNl t)
  match v with
  | .undefined => some (joinNl split, [])
  | .null => none
  | .str s =>
    if s.head? = some '\n' then
      let inner := (split.getLastD []).takeWhile (fun c => isWS c)
      some (joinNl split, [.str (reindentVal inner s)])
    else
      some (joinNl split, [.str s])
  | .num n => some (joinNl split, [.num n])
  | .bool b => some (joinNl split, [.bool b])

/-- The `strings.forEach` loop of `dedent`, walking segments and values in
lockstep (`values[i]` is `undefined` once the value list is exhausted). -/
def dedentGo (indent : Nat) : List Str → List JSValue → Option (List Str × List JSValue)
  | [], _ => some ([], [])
  | t :: ts, vs =>
    match dedentStep indent t (vs.headD .undefined) with
    | none => none
    | some p =>
      match dedentGo indent ts vs.tail with
      | none => none
      | some (S, V) => some (p.1 :: S, p.2 ++ V)

/-- The `dedent` function of the source: engages only when the first literal
segment starts with a line break, with
`indent = strings[0].search(/[^\n \t]|$/) - 1`. -/
def dedent (strings : List Str) (values : List JSValue) : Option (List Str × List JSValue) :=
  match strings with
  | [] => none
  | s0 :: _ =>
    if s0.head? = some '\n' then
      dedentGo (searchNonIndent s0 - 1) strings values
    else
      some (strings, values)

/-- The transformation registry `yatte.settings.format.transform`: a mapping
from token strings to value-transforming functions (which may throw). -/
abbrev Registry := Str → Option (JSValue → Option Str)

/-- `str.substr(str.search(/\s(?=\S+$)/) + 1)`: the maximal run of
non-whitespace characters ending the string if the string ends in one,
otherwise (search returns `-1`) the whole string. -/
def lastTokenOf (s : Str) : Str :=
  let t := (s.reverse.takeWhile (fun c => !isWS c)).reverse
  if t.isEmpty then s else t

/-- The `explicitTransformation` function of the source.  Note that in the
escape branch the registry is consulted with `lastToken` still carrying the
leading backslash, exactly as in the source. -/
def explicitTransformation (reg : Registry) (str : Str) (value : JSValue) : Option Str :=
  let lastToken := lastTokenOf str
  if lastToken.length ≠ 0 then
    if lastToken.head? ≠ some '\\' then
      match reg lastToken with
      | some f => (f value).map (fun out => str.take (str.length - lastToken.length) ++ out)
      | none => some (str ++ jsToString value)
    else
      match reg lastToken with
      | some _ =>
        some (str.take (str.length - lastToken.length - 1) ++ lastToken ++ jsToString value)
      | none => some (str ++ jsToString value)
  else
    some (str ++ jsToString value)

/-- Engine configuration: `yatte.settings.format.indentation` and the
transformation registry, both read at call time. -/
structure Config where
  indentation : Bool
  transform : Registry

/-- The `values.reduce((old, value, i) => old + explicitTransformation(strings[i], value), '')`
pass of `yatte.do`; `strings[i]` past the end of the segment list is
`undefined`, on which `explicitTransformation` throws. -/
def reduceTransform (reg : Registry) (strings : List Str) : List JSValue → Nat → Option Str
  | [], _ => some []
  | v :: vs, i =>
    match strings[i]? with
    | none => none
    | some s =>
      match explicitTransformation reg s v with
      | none => none
      | some piece =>
        match reduceTransform reg strings vs (i + 1) with
        | none => none
        | some r => some (piece ++ r)

/-- `strings[strings.length - 1]` as coerced by the final concatenation of
`yatte.do` (an empty segment array yields the string "undefined"). -/
def lastSegment (strings : List Str) : Str :=
  strings.getLastD (toStr "undefined")

/-- The template-array case of `yatte.do`: dedent (when indentation is
enabled), then fold the values through `explicitTransformation` and append
the final literal segment. -/
def yatteDoArr (cfg : Config) (strings : List Str) (values : List JSValue) : Option Str :=
  match (if cfg.indentation then dedent strings values else some (strings, values)) with
  | none => none
  | some (S, V) =>
    match (if V.isEmpty then some [] else reduceTransform cfg.transform S V 0) with
    | none => none
    | some red => some (red ++ lastSegment S)

/-- Modelled from the spec: the browser `textarea` HTML-entity escaping is an
external collaborator missing from src/ (the source only stores
`document.createElement('textarea')`); per the spec it is an injected
`String -> String` function performing HTML-entity escaping. -/
def htmlEntityEscape (s : Str) : Str :=
  (s.map (fun c =>
    if c = '&' then toStr "&amp;"
    else if c = '<' then toStr "&lt;"
    else if c = '>' then toStr "&gt;"
    else [c])).flatten

/-- The two quote `replace` calls of `escapeHTMLFunc` in the source. -/
def quoteEscape (s : Str) : Str :=
  ((s.map (fun c => if c = '\x22' then toStr "&#34;" else [c])).flatten.map
    (fun c => if c = '\x27' then toStr "&#39;" else [c])).flatten

/-- `yatte.settings.functions.escapeHTMLFunc`: coerces the value to a string,
escapes entities via the textarea element and then the two quote characters.
When the escape element is absent (`escape = null`, the non-browser case) the
property assignment `escape.textContent = html` throws. -/
def escapeHTMLFunc (escAvailable : Bool) (html : JSValue) : Option Str :=
  if escAvailable then some (quoteEscape (htmlEntityEscape (jsToString html)))
  else none

/-- The `U` transformation: `_.toUpperCase()`, a TypeError on non-strings. -/
def jsToUpperCase : JSValue → Option Str
  | .str s => some (s.map Char.toUpper)
  | _ => none

/-- The `L` transformation: `_.toLowerCase()`, a TypeError on non-strings. -/
def jsToLowerCase : JSValue → Option Str
  | .str s => some (s.map Char.toLower)
  | _ => none

/-- The `T` transformation: `_.trim()`, a TypeError on non-strings. -/
def jsTrim : JSValue → Option Str
  | .str s => some (((s.dropWhile (fun c => isWS c)).reverse.dropWhile (fun c => isWS c)).reverse)
  | _ => none

/-- The default transformation registry of `yatte.settings.format.transform`,
parameterised by whether the HTML escape collaborator is configured. -/
def defaultTransform (escAvailable : Bool) : Registry := fun tok =>
  if tok = toStr "$" then some (escapeHTMLFunc escAvailable)
  else if tok = toStr "U" then some jsToUpperCase
  else if tok = toStr "L" then some jsToLowerCase
  else if tok = toStr "T" then some jsTrim
  else none

/-- The engine's default configuration (indentation enabled). -/
def defaultConfig (escAvailable : Bool) : Config :=
  ⟨true, defaultTransform escAvailable⟩

/-- JavaScript truthiness of a primitive value. -/
def truthy : JSValue → Bool
  | .str s => !s.isEmpty
  | .num n => n ≠ 0
  | .bool b => b
  | .null => false
  | .undefined => false

/-- The two shapes of chain object built by `yatte.if`: the closure
`ifFallThrough(result)` (a branch already matched, result stored) and the
pending object whose `elseIf` is `yatte.if` and whose `else` is `yatte.do`. -/
inductive Chain where
  | resolved (result : Str)
  | pending
deriving DecidableEq

/-- `yatte.if(condition)(...template)`: if the condition is truthy, render the
template via `yatte.do` at once and store the result (`ifFallThrough`);
otherwise return the pending chain object.  A throw inside `yatte.do`
propagates. -/
def yatteIf (cfg : Config) (condition : JSValue) (strings : List Str)
    (values : List JSValue) : Option Chain :=
  if truthy condition then (yatteDoArr cfg strings values).map .resolved
  else some .pending

/-- The `elseIf` member of a chain object: on a resolved chain it ignores its
condition and template and returns an equivalent resolved chain; on the
pending chain it is `yatte.if` itself. -/
def chainElseIf (cfg : Config) : Chain → JSValue → List Str → List JSValue → Option Chain
  | .resolved r, _, _, _ => some (.resolved r)
  | .pending, c, s, v => yatteIf cfg c s v

/-- The `else` member of a chain object: on a resolved chain it ignores its
template and returns the stored result; on the pending chain it is `yatte.do`. -/
def chainElse (cfg : Config) : Chain → List Str → List JSValue → Option Str
  | .resolved r, _, _ => some r
  | .pending, s, v => yatteDoArr cfg s v

/-- The iterable argument of `yatte.loop`: a predicate function (modelled by
the sequence of values its successive calls return), a number, an array, or a
key-value object with its insertion-ordered entries. -/
inductive LoopIter where
  | fn (p : Nat → JSValue)
  | num (n : Int)
  | arr (xs : List JSValue)
  | obj (pairs : List (Str × JSValue))

/-- Decimal representation of a numeric array index, as produced by
`Object.keys` (JavaScript object keys are strings). -/
def natToStr (n : Nat) : Str := (toString n).data

/-- `Object.keys(object).map(key => ({key, value: object[key]}))` for an
array, starting at index `i`. -/
def arrPairsFrom : Nat → List JSValue → List (Str × JSValue)
  | _, [] => []
  | i, v :: vs => (natToStr i, v) :: arrPairsFrom (i + 1) vs

/-- The key-value collection `yatte.loop` builds for a non-function,
non-number iterable: index keys for arrays, own insertion-ordered keys for
objects. -/
def collectionOf : LoopIter → List (Str × JSValue)
  | .arr xs => arrPairsFrom 0 xs
  | .obj ps => ps
  | _ => []

/-- The `collectionLength` computed by `yatte.loop`: `1` for a function (the
function object is always truthy), `Math.abs(n)` for a number, and the
collection length otherwise. -/
def collectionLengthOf : LoopIter → Nat
  | .fn _ => 1
  | .num n => n.natAbs
  | it => (collectionOf it).length

/-- The per-result cleanup inside `yatte.loop`'s function mode: a string
result after the first that starts with a line break loses exactly that one
character; everything else is returned unchanged. -/
def stripOne : JSValue → JSValue
  | .str s => if s.head? = some '\n' then .str s.tail else .str s
  | v => v

/-- `mapped.map((str, i) => i > 0 && typeof str === 'string' && str[0] === '\n' ? str.substr(1) : str)`:
the first collected result is kept as is, every later one goes through
`stripOne`. -/
def stripMapped : List JSValue → List JSValue
  | [] => []
  | x :: xs => x :: xs.map stripOne

/-- `Array.prototype.join` element coercion: `null` and `undefined` become
the empty string, other values their string coercion. -/
def joinElem : JSValue → Str
  | .null => []
  | .undefined => []
  | v => jsToString v

/-- The tail of `yatte.loop`'s function mode: strip redundant leading line
breaks, then `mapped.join(joinChar)`. -/
def joinVals (joinChar : Str) (mapped : List JSValue) : Str :=
  intercal joinChar ((stripMapped mapped).map joinElem)

/-- Function mode of `yatte.loop` over a key-value collection:
`collection.map(item => strings(item.value, item.key))`, then strip/join. -/
def loopFnColl (it : LoopIter) (joinChar : Str)
    (body : JSValue → JSValue → JSValue) : Str :=
  joinVals joinChar ((collectionOf it).map (fun kv => body kv.2 (.str kv.1)))

/-- Function mode of `yatte.loop` with a numeric iterable: the body is called
`Math.abs(n)` times with `(i, i)`. -/
def loopFnCount (n : Int) (joinChar : Str)
    (body : JSValue → JSValue → JSValue) : Str :=
  joinVals joinChar ((List.range n.natAbs).map (fun i => body (.num i) (.num i)))

/-- Function mode of `yatte.loop` with a predicate iterable:
`while (object() === true) mapped.push(strings())`.  The stateful predicate
and body closures are modelled by the sequences `p` and `body` of the values
their successive calls return; `H` states that the predicate eventually
returns something other than the boolean `true` (otherwise the source loops
forever). -/
def loopFnWhile (p : Nat → JSValue) (H : ∃ k, p k ≠ JSValue.bool true)
    (joinChar : Str) (body : Nat → JSValue) : Str :=
  joinVals joinChar ((List.range (Nat.find H)).map body)

/-- `(s + joinChar).repeat(n)`. -/
def repeatStr (s : Str) (n : Nat) : Str := (List.replicate n s).flatten

/-- Literal-segment mode of `yatte.loop`: render the template once via
`yatte.do`, repeat the string `collectionLength` times with the join
character appended, and chop the one trailing join character
(`result.substring(0, result.length - joinChar.length)`). -/
def loopLit (cfg : Config) (it : LoopIter) (joinChar : Str) (strings : List Str)
    (values : List JSValue) : Option Str :=
  (yatteDoArr cfg strings values).map (fun s =>
    let result := repeatStr (s ++ joinChar) (collectionLengthOf it)
    result.take (result.length - joinChar.length))

/-- A predicate-call sequence that returns `true` twice and then the truthy
non-boolean number `1`. -/
def predTwice : Nat → JSValue := fun k => if k < 2 then .bool true else .num 1

/-- A body-call sequence returning the decimal index of the call. -/
def bodyIdx : Nat → JSValue := fun k => .str (natToStr k)

theorem searchNonIndent_cons_ws (x : Char) (r : Str) (hx : x = '\n' ∨ x = ' ' ∨ x = '\t') :
    searchNonIndent (x :: r) = 1 + searchNonIndent r := by
  rcases hx with h | h | h <;> subst h <;> simp [searchNonIndent]

theorem searchNonIndent_cons_notws (c : Char) (r : Str)
    (hc : ¬(c = '\n' ∨ c = ' ' ∨ c = '\t')) :
    searchNonIndent (c :: r) = 0 := by
  push_neg at hc
  simp [searchNonIndent, hc.1, hc.2.1, hc.2.2]

theorem searchNonIndent_indent (ws : Str) (c : Char) (r : Str)
    (hws : ∀ x ∈ ws, x = ' ' ∨ x = '\t')
    (hc : ¬(c = '\n' ∨ c = ' ' ∨ c = '\t')) :
    searchNonIndent (ws ++ c :: r) = ws.length := by
  induction ws with
  | nil => simpa using searchNonIndent_cons_notws c r hc
  | cons x xs ih =>
    have hx : x = '\n' ∨ x = ' ' ∨ x = '\t' := by
      rcases hws x (by simp) with h | h
      · exact Or.inr (Or.inl h)
      · exact Or.inr (Or.inr h)
    rw [List.cons_append, searchNonIndent_cons_ws x _ hx,
      ih (fun y hy => hws y (by simp [hy]))]
    simp [Nat.add_comm]

theorem dedentStep_fst (ind : Nat) (t : Str) (v : JSValue) (p : Str × List JSValue)
    (h : dedentStep ind t v = some p) : p.1 = dedentSeg ind t := by
  cases v with
  | str s =>
    by_cases hs : s.head? = some '\n' <;>
      simp [dedentStep, hs] at h <;> simp [← h, dedentSeg]
  | num n => simp [dedentStep] at h; simp [← h, dedentSeg]
  | bool b => simp [dedentStep] at h; simp [← h, dedentSeg]
  | null => simp [dedentStep] at h
  | undefined => simp [dedentStep] at h; simp [← h, dedentSeg]

theorem dedentGo_strings (ind : Nat) :
    ∀ (ts : List Str) (vs : List JSValue) (S : List Str) (V : List JSValue),
      dedentGo ind ts vs = some (S, V) → S = ts.map (dedentSeg ind) := by
  intro ts
  induction ts with
  | nil =>
    intro vs S V h
    simp [dedentGo] at h
    simp [h.1]
  | cons t ts ih =>
    intro vs S V h
    unfold dedentGo at h
    cases hstep : dedentStep ind t (vs.headD .undefined) with
    | none => rw [hstep] at h; cases h
    | some p =>
      rw [hstep] at h
      cases hgo : dedentGo ind ts vs.tail with
      | none => rw [hgo] at h; cases h
      | some q =>
        rw [hgo] at h
        obtain ⟨S', V'⟩ := q
        simp at h
        rw [List.map_cons, ← h.1, dedentStep_fst ind t _ p hstep,
          ih vs.tail S' V' hgo]

theorem dedentGo_none_of_null (ind : Nat) :
    ∀ (ts : List Str) (vs : List JSValue) (i : Nat),
      vs[i]? = some .null → i < ts.length → dedentGo ind ts vs = none := by
  intro ts
  induction ts with
  | nil => intro vs i _ hlt; simp at hlt
  | cons t ts ih =>
    intro vs i hv hlt
    cases vs with
    | nil => simp at hv
    | cons v0 vs' =>
      cases i with
      | zero =>
        simp at hv
        subst hv
        simp [dedentGo, dedentStep]
      | succ i =>
        simp at hv
        have hrec := ih vs' i hv (by simpa using Nat.lt_of_succ_lt_succ hlt)
        unfold dedentGo
        simp only [List.headD_cons, List.tail_cons, hrec]
        cases hstep : dedentStep ind t v0 <;> simp

theorem dedentStep_passthrough (ind : Nat) (t : Str) (v : JSValue)
    (hnull : v ≠ .null) (hundef : v ≠ .undefined) (hstr : ∀ s, v ≠ .str s) :
    dedentStep ind t v = some (dedentSeg ind t, [v]) := by
  cases v with
  | str s => exact absurd rfl (hstr s)
  | null => exact absurd rfl hnull
  | undefined => exact absurd rfl hundef
  | num n => simp [dedentStep, dedentSeg]
  | bool b => simp [dedentStep, dedentSeg]

theorem reduceTransform_none (reg : Registry) (strings : List Str) :
    ∀ (vs : List JSValue) (j i : Nat) (s : Str) (v : JSValue),
      vs[i]? = some v → strings[j + i]? = some s →
      explicitTransformation reg s v = none →
      reduceTransform reg strings vs j = none := by
  intro vs
  induction vs with
  | nil => intro j i s v hv _ _; simp at hv
  | cons v0 vs' ih =>
    intro j i s v hv hs hET
    cases i with
    | zero =>
      simp at hv
      subst hv
      rw [Nat.add_zero] at hs
      unfold reduceTransform
      simp [hs, hET]
    | succ i =>
      simp at hv
      have hrec := ih (j + 1) i s v hv
        (by rw [show j + 1 + i = j + (i + 1) by omega]; exact hs) hET
      unfold reduceTransform
      simp only [hrec]
      cases hget : strings[j]? with
      | none => simp
      | some s0 =>
        simp only [hget]
        cases hET0 : explicitTransformation reg s0 v0 <;> simp

/-- C1, counterexample: the claim asserts that `render(["\n  1\n    2"], [])`
returns `"1\n  2"`, but the engine keeps the first segment's first line (the
empty line before the leading line break), so the rendered string retains the
leading line break and equals `"\n1\n  2"`. -/
theorem c1_counterexample :
    yatteDoArr (defaultConfig true) [toStr "\n  1\n    2"] []
      ≠ some (toStr "1\n  2") := by
  decide

/-- C1, amended: for a template whose first literal segment is a line break
followed by `k` whitespace characters (space or tab) and then a visible
character, and whose remaining lines carry at least `k` leading whitespace
characters, a successful dedent pass rewrites every literal segment by
removing exactly the first `k` characters (all whitespace) from every line
except the segment's own first line; the example template renders to
`"\n1\n  2"`, keeping the leading line break. -/
theorem c1_dedent_base_indent (strings : List Str) (values : List JSValue)
    (k : Nat) (ws tl : List Char) (c : Char) (rest : List Str)
    (S : List Str) (V : List JSValue)
    (hstr : strings = ('\n' :: (ws ++ c :: tl)) :: rest)
    (hws : ∀ x ∈ ws, x = ' ' ∨ x = '\t')
    (hk : ws.length = k)
    (hc : ¬(c = '\n' ∨ c = ' ' ∨ c = '\t'))
    (hlines : ∀ t ∈ strings, ∀ l ∈ (splitNl t).drop 1, ∀ x ∈ l.take k, isWS x = true)
    (hd : dedent strings values = some (S, V)) :
    S = strings.map (dedentSeg k)
    ∧ (∀ t ∈ strings, ∀ l ∈ (splitNl t).drop 1,
        l = l.take k ++ l.drop k ∧ ∀ x ∈ l.take k, isWS x = true)
    ∧ yatteDoArr (defaultConfig true) [toStr "\n  1\n    2"] []
        = some (toStr "\n1\n  2") := by
  refine ⟨?_, ?_, by decide⟩
  · subst hstr
    have hd' : dedentGo (searchNonIndent ('\n' :: (ws ++ c :: tl)) - 1)
        (('\n' :: (ws ++ c :: tl)) :: rest) values = some (S, V) := by
      simpa [dedent] using hd
    have hsearch : searchNonIndent ('\n' :: (ws ++ c :: tl)) = 1 + k := by
      rw [searchNonIndent_cons_ws '\n' _ (Or.inl rfl),
        searchNonIndent_indent ws c tl hws hc, hk]
    rw [hsearch, show 1 + k - 1 = k by omega] at hd'
    exact dedentGo_strings k _ values S V hd'
  · intro t ht l hl
    exact ⟨(List.take_append_drop k l).symm, hlines t ht l hl⟩

/-- C1 witness: the amended statement instantiated on the example template
`["\n  1\n    2"]` with no values and base indentation `2`. -/
theorem c1_witness :
    (dedent [toStr "\n  1\n    2"] []
        = some ([toStr "\n  1\n    2"].map (dedentSeg 2), []))
    ∧ yatteDoArr (defaultConfig true) [toStr "\n  1\n    2"] []
        = some (toStr "\n1\n  2") := by
  have h := c1_dedent_base_indent [toStr "\n  1\n    2"] [] 2
    [' ', ' '] (toStr "\n    2") '1' []
    ([toStr "\n1\n  2"]) []
    (by decide) (by decide) (by decide) (by decide) (by decide) (by decide)
  exact ⟨by rw [← h.1]; decide, h.2.2⟩

/-- C2, code behaviour at the failing input: for the segment `"a \U"` (an
escaped registered token) the escape branch consults the registry with the
token still carrying the backslash, finds nothing, and therefore leaves the
segment unchanged: the escape marker is NOT stripped, the output is
`"a \Ux"`, not the `"a Ux"` the claim requires (the value does stay
untransformed). -/
theorem c2_escape_marker_not_stripped :
    yatteDoArr (defaultConfig true) [toStr "a \\U", toStr ""] [.str (toStr "x")]
      = some (toStr "a \\Ux")
    ∧ yatteDoArr (defaultConfig true) [toStr "a \\U", toStr ""] [.str (toStr "x")]
      ≠ some (toStr "a Ux") := by
  exact ⟨by decide, by decide⟩

/-- C3: a trailing whitespace-delimited token that is non-empty, does not
start with the escape marker and is registered is stripped from the segment,
and the value is replaced by the registered function's output; with the
HTML-escape token the example renders to
`"This is HTML &lt;p&gt;test&lt;/p&gt;"`, and single and double quotes in
the value are escaped as `&#39;` and `&#34;`. -/
theorem c3_registered_token (reg : Registry) (str tok out : Str) (value : JSValue)
    (f : JSValue → Option Str)
    (htok : lastTokenOf str = tok) (hne : tok ≠ [])
    (hesc : tok.head? ≠ some '\\')
    (hreg : reg tok = some f) (hf : f value = some out) :
    explicitTransformation reg str value
      = some (str.take (str.length - tok.length) ++ out)
    ∧ yatteDoArr (defaultConfig true) [toStr "This is HTML $", toStr ""]
        [.str (toStr "<p>test</p>")]
        = some (toStr "This is HTML &lt;p&gt;test&lt;/p&gt;")
    ∧ yatteDoArr (defaultConfig true) [toStr "x $", toStr ""]
        [.str (toStr "\x22\x27")] = some (toStr "x &#34;&#39;") := by
  refine ⟨?_, by decide, by decide⟩
  unfold explicitTransformation
  simp only [htok]
  rw [if_pos (by simpa using hne), if_pos hesc]
  simp [hreg, hf]

/-- C3 witness: the general statement instantiated on the HTML-escape token
of the default registry at segment `"This is HTML $"` and value
`"<p>test</p>"`. -/
theorem c3_witness :
    explicitTransformation (defaultTransform true) (toStr "This is HTML $")
        (.str (toStr "<p>test</p>"))
      = some ((toStr "This is HTML $").take ((toStr "This is HTML $").length - 1)
          ++ toStr "&lt;p&gt;test&lt;/p&gt;") := by
  exact (c3_registered_token (defaultTransform true) (toStr "This is HTML $")
    (toStr "$") (toStr "&lt;p&gt;test&lt;/p&gt;") (.str (toStr "<p>test</p>"))
    (escapeHTMLFunc true) (by decide) (by decide) (by decide) rfl
    (by decide)).1

/-- C4: whenever the HTML-escape token is the trailing token of a segment
actually paired with a value (after the dedent pass) while the escape
collaborator is not configured, the whole render throws instead of returning
a string with the unescaped value. -/
theorem c4_missing_escape_throws (b : Bool) (strings S : List Str)
    (values V : List JSValue) (i : Nat) (s : Str) (v : JSValue)
    (hd : (if b then dedent strings values else some (strings, values)) = some (S, V))
    (hs : S[i]? = some s) (hv : V[i]? = some v)
    (ht : lastTokenOf s = toStr "$") :
    yatteDoArr ⟨b, defaultTransform false⟩ strings values = none := by
  have hET : explicitTransformation (defaultTransform false) s v = none := by
    unfold explicitTransformation
    simp only [ht]
    rw [if_pos (by decide), if_pos (by decide)]
    have hreg : defaultTransform false (toStr "$") = some (escapeHTMLFunc false) := rfl
    rw [hreg]
    simp [escapeHTMLFunc]
  have hnone : reduceTransform (defaultTransform false) S V 0 = none :=
    reduceTransform_none (defaultTransform false) S V 0 i s v hv
      (by rw [Nat.zero_add]; exact hs) hET
  have hVne : ¬V.isEmpty := by
    cases V with
    | nil => simp at hv
    | cons x xs => simp
  unfold yatteDoArr
  simp only [hd, hnone]
  simp [List.isEmpty_iff] at hVne
  simp [hVne]

/-- C4 witness: the render `["a $", ""]` with value `"<p>"` under the
default registry with no escape function configured throws. -/
theorem c4_witness :
    yatteDoArr ⟨true, defaultTransform false⟩ [toStr "a $", toStr ""]
      [.str (toStr "<p>")] = none := by
  exact c4_missing_escape_throws true [toStr "a $", toStr ""]
    [toStr "a $", toStr ""] [.str (toStr "<p>")] [.str (toStr "<p>")]
    0 (toStr "a $") (.str (toStr "<p>"))
    (by decide) (by decide) (by decide) (by decide)

/-- C5: entering the chain with a true condition renders the first branch
and resolves the chain; every later `elseIf` then ignores its arguments and
`else` returns the stored result.  Entering with a false condition leaves
the chain pending, so a true `elseIf` renders its own branch. -/
theorem c5_conditional_chain (cfg : Config) (sA sB sC : List Str)
    (vA vB vC : List JSValue) (c2 : JSValue) (rA rB : Str)
    (hA : yatteDoArr cfg sA vA = some rA)
    (hB : yatteDoArr cfg sB vB = some rB) :
    ((yatteIf cfg (.bool true) sA vA).bind (fun ch =>
      (chainElseIf cfg ch c2 sB vB).bind (fun ch2 =>
        chainElse cfg ch2 sC vC)) = some rA)
    ∧ ((yatteIf cfg (.bool false) sA vA).bind (fun ch =>
      (chainElseIf cfg ch (.bool true) sB vB).bind (fun ch2 =>
        chainElse cfg ch2 sC vC)) = some rB)
    ∧ (∀ (r : Str) (c : JSValue) (s : List Str) (v : List JSValue),
        chainElseIf cfg (.resolved r) c s v = some (.resolved r))
    ∧ (∀ (r : Str) (s : List Str) (v : List JSValue),
        chainElse cfg (.resolved r) s v = some r) := by
  refine ⟨?_, ?_, fun r c s v => rfl, fun r s v => rfl⟩
  · simp [yatteIf, truthy, hA, chainElseIf, chainElse]
  · simp [yatteIf, truthy, hB, chainElseIf, chainElse]

/-- C5 witness: the chain instantiated on concrete one-segment branches,
with a numeric condition on the ignored `elseIf`. -/
theorem c5_witness :
    ((yatteIf (defaultConfig true) (.bool true) [toStr "A"] []).bind (fun ch =>
      (chainElseIf (defaultConfig true) ch (.num 7) [toStr "B"] []).bind (fun ch2 =>
        chainElse (defaultConfig true) ch2 [toStr "C"] [])) = some (toStr "A"))
    ∧ ((yatteIf (defaultConfig true) (.bool false) [toStr "A"] []).bind (fun ch =>
      (chainElseIf (defaultConfig true) ch (.bool true) [toStr "B"] []).bind (fun ch2 =>
        chainElse (defaultConfig true) ch2 [toStr "C"] [])) = some (toStr "B")) := by
  have h := c5_conditional_chain (defaultConfig true) [toStr "A"] [toStr "B"]
    [toStr "C"] [] [] [] (.num 7) (toStr "A") (toStr "B") (by decide) (by decide)
  exact ⟨h.1, h.2.1⟩

theorem map_stripOne_id (xs : List JSValue) (h : ∀ r ∈ xs, stripOne r = r) :
    xs.map stripOne = xs := by
  induction xs with
  | nil => rfl
  | cons y ys ih => simp [h y (by simp), ih (fun r hr => h r (by simp [hr]))]

theorem stripMapped_eq_self (l : List JSValue) (h : ∀ r ∈ l.drop 1, stripOne r = r) :
    stripMapped l = l := by
  cases l with
  | nil => rfl
  | cons x xs =>
    simp only [stripMapped, List.cons.injEq, true_and]
    exact map_stripOne_id xs (by simpa using h)

theorem arrPairsFrom_getElem (xs : List JSValue) :
    ∀ (j i : Nat), (arrPairsFrom j xs)[i]? = xs[i]?.map (fun v => (natToStr (j + i), v)) := by
  induction xs with
  | nil => intro j i; simp [arrPairsFrom]
  | cons v vs ih =>
    intro j i
    cases i with
    | zero => simp [arrPairsFrom]
    | succ i =>
      simp only [arrPairsFrom, List.getElem?_cons_succ, ih (j + 1) i,
        show j + 1 + i = j + (i + 1) by omega]

/-- C6: the function-mode loop over a keyed collection calls the body once
per pair, in order, with `(value, key)`, and joins the results with the
separator and no trailing separator; arrays contribute their decimal index
as the key, objects their insertion-ordered keys; the two example loops
render as documented. -/
theorem c6_loop_keyed_pairs :
    (∀ (it : LoopIter) (j : Str) (body : JSValue → JSValue → JSValue),
      (∀ r ∈ ((collectionOf it).map (fun kv => body kv.2 (.str kv.1))).drop 1,
        stripOne r = r) →
      loopFnColl it j body
        = intercal j (((collectionOf it).map (fun kv => body kv.2 (.str kv.1))).map joinElem))
    ∧ (∀ (xs : List JSValue) (i : Nat),
        (collectionOf (.arr xs))[i]? = xs[i]?.map (fun v => (natToStr i, v)))
    ∧ (∀ ps : List (Str × JSValue), collectionOf (.obj ps) = ps)
    ∧ loopFnColl (.arr [.str (toStr "Parrot"), .str (toStr "Rabbit"), .str (toStr "Snake")])
        (toStr "\n") (fun v _ => .str (toStr "This is a " ++ jsToString v))
        = toStr "This is a Parrot\nThis is a Rabbit\nThis is a Snake"
    ∧ loopFnColl (.obj [(toStr "name", .str (toStr "Joe")), (toStr "age", .num 46)])
        (toStr "\n") (fun v k => .str (jsToString k ++ toStr ": " ++ jsToString v))
        = toStr "name: Joe\nage: 46" := by
  refine ⟨?_, ?_, fun ps => rfl, by decide, by decide⟩
  · intro it j body h
    unfold loopFnColl joinVals
    rw [stripMapped_eq_self _ h]
  · intro xs i
    simpa using arrPairsFrom_getElem xs 0 i

/-- C6 witness: the general join statement instantiated on a concrete
two-entry object whose body results carry no leading line breaks. -/
theorem c6_witness :
    loopFnColl (.obj [(toStr "a", JSValue.num 1), (toStr "b", JSValue.num 2)])
        (toStr ", ") (fun v k => .str (jsToString k ++ toStr "=" ++ jsToString v))
      = intercal (toStr ", ")
          (((collectionOf (.obj [(toStr "a", JSValue.num 1), (toStr "b", JSValue.num 2)])).map
              (fun kv => (fun v k => JSValue.str (jsToString k ++ toStr "=" ++ jsToString v))
                kv.2 (.str kv.1))).map joinElem) := by
  exact c6_loop_keyed_pairs.1 (.obj [(toStr "a", JSValue.num 1), (toStr "b", JSValue.num 2)])
    (toStr ", ") (fun v k => .str (jsToString k ++ toStr "=" ++ jsToString v)) (by decide)

/-- C7: after the function-mode loop collects its results, the first result
is kept unchanged, and every later result goes through `stripOne`, which
removes exactly one leading line break from a string starting with one and
leaves any other value (including non-strings) unchanged; the join step
operates on exactly this stripped list. -/
theorem c7_strip_leading_linebreaks :
    stripMapped [] = []
    ∧ (∀ (x : JSValue) (xs : List JSValue), stripMapped (x :: xs) = x :: xs.map stripOne)
    ∧ (∀ r : Str, stripOne (.str ('\n' :: r)) = .str r)
    ∧ (∀ v : JSValue, (∀ r, v ≠ .str ('\n' :: r)) → stripOne v = v)
    ∧ (∀ (j : Str) (mapped : List JSValue),
        joinVals j mapped = intercal j ((stripMapped mapped).map joinElem)) := by
  refine ⟨rfl, fun x xs => rfl, fun r => by simp [stripOne], ?_, fun j mapped => rfl⟩
  intro v h
  cases v with
  | str s =>
    cases s with
    | nil => simp [stripOne]
    | cons c cs =>
      by_cases hc : c = '\n'
      · subst hc
        exact absurd rfl (h cs)
      · simp [stripOne, hc]
  | num n => rfl
  | bool b => rfl
  | null => rfl
  | undefined => rfl

/-- C7 witness: the unchanged-value clause instantiated on a number, plus
the strip clause on a concrete two-result list. -/
theorem c7_witness :
    stripOne (JSValue.num 3) = JSValue.num 3
    ∧ stripMapped [JSValue.str (toStr "\na"), JSValue.str (toStr "\nb"), JSValue.num 3]
        = [JSValue.str (toStr "\na"),
           JSValue.str (toStr "\nb"), JSValue.num 3].head?.toList
          ++ [JSValue.str (toStr "\nb"), JSValue.num 3].map stripOne := by
  refine ⟨c7_strip_leading_linebreaks.2.2.2.1 (JSValue.num 3) (fun r h => by cases h), ?_⟩
  rw [c7_strip_leading_linebreaks.2.1]
  rfl

theorem repeatStr_succ (x : Str) (n : Nat) : repeatStr x (n + 1) = x ++ repeatStr x n := by
  simp [repeatStr, List.replicate_succ]

theorem repeatStr_length (x : Str) (n : Nat) : (repeatStr x n).length = n * x.length := by
  induction n with
  | zero => simp [repeatStr]
  | succ m ih => rw [repeatStr_succ, List.length_append, ih, Nat.succ_mul]; omega

theorem take_append_exact (a b : List Char) (n : Nat) :
    (a ++ b).take (a.length + n) = a ++ b.take n := by
  induction a with
  | nil => simp
  | cons c cs ih =>
    rw [List.cons_append, List.length_cons,
      show cs.length + 1 + n = (cs.length + n) + 1 by omega,
      List.take_succ_cons, ih, List.cons_append]

theorem repeat_take_intercal (s j : Str) (n : Nat) :
    (repeatStr (s ++ j) n).take ((repeatStr (s ++ j) n).length - j.length)
      = intercal j (List.replicate n s) := by
  induction n with
  | zero => simp [repeatStr, intercal]
  | succ m ih =>
    cases m with
    | zero =>
      rw [repeatStr_succ, show repeatStr (s ++ j) 0 = [] from rfl, List.append_nil,
        List.length_append, show s.length + j.length - j.length = s.length + 0 by omega,
        take_append_exact, List.take_zero, List.append_nil]
      simp [intercal]
    | succ m' =>
      have hlen : j.length ≤ (repeatStr (s ++ j) (m' + 1)).length := by
        rw [repeatStr_length, List.length_append]
        calc j.length ≤ s.length + j.length := by omega
          _ ≤ (m' + 1) * (s.length + j.length) :=
            Nat.le_mul_of_pos_left _ (Nat.succ_pos m')
      rw [repeatStr_succ, List.length_append,
        show (s ++ j).length + (repeatStr (s ++ j) (m' + 1)).length - j.length
          = (s ++ j).length + ((repeatStr (s ++ j) (m' + 1)).length - j.length) by omega,
        take_append_exact, ih, List.replicate_succ, List.replicate_succ]
      simp [intercal]

/-- C8: literal-segment mode of the loop renders the template once via the
base invoker and yields `count` copies of the resulting string joined by the
separator with no trailing separator, where `count` is `|n|` for a numeric
iterable and `1` for a predicate iterable; the count-5 `"Hi!"` example
renders as documented. -/
theorem c8_literal_mode (cfg : Config) (it : LoopIter) (j : Str)
    (strings : List Str) (values : List JSValue) (s : Str)
    (h : yatteDoArr cfg strings values = some s) :
    loopLit cfg it j strings values
      = some (intercal j (List.replicate (collectionLengthOf it) s))
    ∧ (∀ n : Int, collectionLengthOf (.num n) = n.natAbs)
    ∧ (∀ p : Nat → JSValue, collectionLengthOf (.fn p) = 1)
    ∧ loopLit (defaultConfig true) (.num 5) (toStr "-") [toStr "Hi!"] []
        = some (toStr "Hi!-Hi!-Hi!-Hi!-Hi!") := by
  refine ⟨?_, fun n => rfl, fun p => rfl, by decide⟩
  unfold loopLit
  rw [h]
  simp only [Option.map_some']
  rw [repeat_take_intercal]

/-- C8 witness: literal-segment mode at count 3 with separator `"-"` and the
one-segment template `"Hi!"`. -/
theorem c8_witness :
    loopLit (defaultConfig true) (.num 3) (toStr "-") [toStr "Hi!"] []
      = some (intercal (toStr "-")
          (List.replicate (collectionLengthOf (.num 3)) (toStr "Hi!"))) := by
  exact (c8_literal_mode (defaultConfig true) (.num 3) (toStr "-") [toStr "Hi!"] []
    (toStr "Hi!") (by decide)).1

/-- C9: with indentation enabled and a first segment starting with a line
break, a `null` value at any examined position makes the whole render throw
(the dedent pass evaluates `values[i][0]`, a TypeError on `null`) rather
than return a string, while non-string values other than `null` and
`undefined` pass through the dedent step unchanged and without error. -/
theorem c9_null_value_throws (cfg : Config) (strings : List Str)
    (values : List JSValue) (s0 : Str) (rest : List Str) (i : Nat)
    (hind : cfg.indentation = true)
    (hstr : strings = s0 :: rest) (h0 : s0.head? = some '\n')
    (hv : values[i]? = some .null) (hi : i < strings.length) :
    yatteDoArr cfg strings values = none
    ∧ (∀ (ind : Nat) (t : Str) (v : JSValue), v ≠ .null → v ≠ .undefined →
        (∀ s, v ≠ .str s) → dedentStep ind t v = some (dedentSeg ind t, [v])) := by
  refine ⟨?_, dedentStep_passthrough⟩
  subst hstr
  have hded : dedent (s0 :: rest) values = none := by
    have hgo := dedentGo_none_of_null (searchNonIndent s0 - 1) (s0 :: rest) values i hv hi
    simp [dedent, h0, hgo]
  unfold yatteDoArr
  rw [hind]
  simp [hded]

/-- C9 witness: a null value under the indentation pass throws, and a
numeric value passes through the dedent step unchanged. -/
theorem c9_witness :
    yatteDoArr (defaultConfig true) [toStr "\n a", toStr " b"] [.null] = none
    ∧ dedentStep 1 (toStr " b") (.num 5) = some (dedentSeg 1 (toStr " b"), [.num 5]) := by
  have h := c9_null_value_throws (defaultConfig true) [toStr "\n a", toStr " b"]
    [.null] (toStr "\n a") [toStr " b"] 0 rfl rfl (by decide) (by decide) (by decide)
  exact ⟨h.1, h.2 1 (toStr " b") (.num 5) (by simp) (by simp) (fun s => by simp)⟩

/-- C10: in function mode with a predicate iterable, the body is invoked
exactly once per predicate call that returned the boolean `true`, and the
iteration stops at the first call returning anything else — including a
truthy non-boolean value. -/
theorem c10_while_strict_true (p : Nat → JSValue)
    (H : ∃ k, p k ≠ JSValue.bool true) (j : Str) (body : Nat → JSValue) :
    (∀ k, k < Nat.find H → p k = JSValue.bool true)
    ∧ p (Nat.find H) ≠ JSValue.bool true
    ∧ loopFnWhile p H j body = joinVals j ((List.range (Nat.find H)).map body) := by
  refine ⟨?_, Nat.find_spec H, rfl⟩
  intro k hk
  exact not_not.mp (Nat.find_min H hk)

/-- C10 witness: a predicate returning `true` twice and then the truthy
number `1` stops the loop after exactly two body calls. -/
theorem c10_witness :
    loopFnWhile predTwice ⟨2, by decide⟩ (toStr "\n") bodyIdx = toStr "0\n1" := by
  have hfind : ∀ (H : ∃ k, predTwice k ≠ JSValue.bool true), Nat.find H = 2 := by
    intro H
    rw [Nat.find_eq_iff]
    exact ⟨by decide, by decide⟩
  have h := (c10_while_strict_true predTwice ⟨2, by decide⟩ (toStr "\n") bodyIdx).2.2
  rw [h, hfind]
  decide

end Yatte
